import Mathlib

/-!
Shallow embedding of `src/FiniteMDP.py` (class `FiniteMDP`), the tabular
reinforcement-learning engine of this repository: iterative policy
evaluation (`compute_state_values`), optimal state-value iteration
(`compute_optimal_state_values`), optimal action-value iteration
(`compute_optimal_action_values`), greedy policy extraction
(`convert_action_values_into_policy`), the episode rollout driver
(`run_MDP_for_given_policy`), epsilon-greedy action selection
(`chooseAction`) and episodic Q-learning (`q_learning`).

Real-valued numpy arrays are modelled over `ℚ`: a value vector is a
`List ℚ`, an action-value table is a `List (List ℚ)` when the whole table
is rebuilt each sweep, and a function `Nat → Nat → ℚ` when single entries
are mutated in place.  The `while True` convergence loops are modelled
with an explicit fuel parameter returning `Option`; `none` means the fuel
ran out before the loop's own stopping test fired (the Python code would
simply keep running).  The stochastic pieces (environment `step` outcomes,
`random.choices`, `np.random`) are modelled by oracles giving the realized
outcomes, or by the support (set of possible outcomes) of the draw.
-/

set_option linter.unusedVariables false

namespace TabularRL

/-- `np.max` / Python `max` over a 1-D array as used by the source: the
maximum element of the list.  Modelled as a fold of `max` seeded with the
first element (`np.max` errors on an empty array; we seed with `0`,
callers always pass nonempty lists). -/
def npMax (l : List ℚ) : ℚ := l.foldl max (l.headD 0)

/-- `np.min` over a 1-D array, dual to `npMax`. -/
def npMin (l : List ℚ) : ℚ := l.foldl min (l.headD 0)

theorem le_foldl_max (l : List ℚ) : ∀ b : ℚ, b ≤ l.foldl max b := by
  induction l with
  | nil => intro b; exact le_refl b
  | cons x xs ih =>
      intro b
      exact le_trans (le_max_left b x) (ih (max b x))

theorem mem_le_foldl_max (l : List ℚ) : ∀ b : ℚ, ∀ x ∈ l, x ≤ l.foldl max b := by
  induction l with
  | nil => intro b x hx; cases hx
  | cons y ys ih =>
      intro b x hx
      rcases List.mem_cons.mp hx with h | h
      · subst h
        exact le_trans (le_max_right b x) (le_foldl_max ys (max b x))
      · exact ih (max b y) x h

theorem foldl_max_le (l : List ℚ) :
    ∀ b c : ℚ, b ≤ c → (∀ x ∈ l, x ≤ c) → l.foldl max b ≤ c := by
  induction l with
  | nil => intro b c hb _; exact hb
  | cons y ys ih =>
      intro b c hb hl
      refine ih (max b y) c (max_le hb (hl y (List.mem_cons_self y ys))) ?_
      intro x hx
      exact hl x (List.mem_cons_of_mem y hx)

theorem foldl_max_mem (l : List ℚ) : ∀ b : ℚ, l.foldl max b = b ∨ l.foldl max b ∈ l := by
  induction l with
  | nil => intro b; exact Or.inl rfl
  | cons y ys ih =>
      intro b
      rcases ih (max b y) with h | h
      · by_cases hby : b ≤ y
        · right
          rw [List.foldl_cons, h, max_eq_right hby]
          exact List.mem_cons_self y ys
        · left
          rw [List.foldl_cons, h, max_eq_left (le_of_not_le hby)]
      · right
        exact List.mem_cons_of_mem y h

theorem npMax_mem (l : List ℚ) (h : l ≠ []) : npMax l ∈ l := by
  cases l with
  | nil => exact absurd rfl h
  | cons x xs =>
      unfold npMax
      rcases foldl_max_mem (x :: xs) ((x :: xs).headD 0) with h' | h'
      · rw [h']; exact List.mem_cons_self x xs
      · exact h'

theorem le_npMax_of_mem (l : List ℚ) (x : ℚ) (hx : x ∈ l) : x ≤ npMax l :=
  mem_le_foldl_max l (l.headD 0) x hx

theorem foldl_min_le (l : List ℚ) : ∀ b : ℚ, l.foldl min b ≤ b := by
  induction l with
  | nil => intro b; exact le_refl b
  | cons x xs ih =>
      intro b
      exact le_trans (ih (min b x)) (min_le_left b x)

theorem foldl_min_le_mem (l : List ℚ) : ∀ b : ℚ, ∀ x ∈ l, l.foldl min b ≤ x := by
  induction l with
  | nil => intro b x hx; cases hx
  | cons y ys ih =>
      intro b x hx
      rcases List.mem_cons.mp hx with h | h
      · subst h
        exact le_trans (foldl_min_le ys (min b x)) (min_le_right b x)
      · exact ih (min b y) x h

theorem le_foldl_min (l : List ℚ) :
    ∀ b c : ℚ, c ≤ b → (∀ x ∈ l, c ≤ x) → c ≤ l.foldl min b := by
  induction l with
  | nil => intro b c hb _; exact hb
  | cons y ys ih =>
      intro b c hb hl
      refine ih (min b y) c (le_min hb (hl y (List.mem_cons_self y ys))) ?_
      intro x hx
      exact hl x (List.mem_cons_of_mem y hx)

theorem npMin_le_of_mem (l : List ℚ) (x : ℚ) (hx : x ∈ l) : npMin l ≤ x :=
  foldl_min_le_mem l (l.headD 0) x hx

/-- `getD` through `List.map` at an in-range index. -/
theorem getD_map {α β : Type} (f : α → β) (dA : α) (dB : β) :
    ∀ (l : List α) (i : Nat), i < l.length →
    (l.map f).getD i dB = f (l.getD i dA) := by
  intro l
  induction l with
  | nil => intro i hi; cases hi
  | cons x xs ih =>
      intro i hi
      cases i with
      | zero => rfl
      | succ j => exact ih j (Nat.lt_of_succ_lt_succ hi)

/-- `getD` on `(List.range n).map f` at an in-range index. -/
theorem getD_map_range {α : Type} (f : Nat → α) (d : α) : ∀ (n i : Nat), i < n →
    ((List.range n).map f).getD i d = f i := by
  intro n i hi
  have h1 : ((List.range n).map f).getD i d = (((List.range n).map f)[i]?).getD d := by
    simp [List.getD_eq_getElem?_getD]
  rw [h1, List.getElem?_map, List.getElem?_range hi]
  rfl

theorem getD_replicate {α : Type} (x d : α) : ∀ (n i : Nat), i < n →
    (List.replicate n x).getD i d = x := by
  intro n
  induction n with
  | zero => intro i hi; cases hi
  | succ m ih =>
      intro i hi
      cases i with
      | zero => rfl
      | succ j => exact ih j (Nat.lt_of_succ_lt_succ hi)

theorem getD_set_self : ∀ (l : List ℚ) (i : Nat) (v : ℚ), i < l.length →
    (l.set i v).getD i 0 = v := by
  intro l
  induction l with
  | nil => intro i v hi; cases hi
  | cons x xs ih =>
      intro i v hi
      cases i with
      | zero => rfl
      | succ j => exact ih j v (Nat.lt_of_succ_lt_succ hi)

theorem getD_set_ne : ∀ (l : List ℚ) (i j : Nat) (v : ℚ), i ≠ j →
    (l.set i v).getD j 0 = l.getD j 0 := by
  intro l
  induction l with
  | nil => intro i j v _; simp [List.set]
  | cons x xs ih =>
      intro i j v hij
      cases i with
      | zero =>
          cases j with
          | zero => exact absurd rfl hij
          | succ k => rfl
      | succ i' =>
          cases j with
          | zero => rfl
          | succ k => exact ih i' k v (fun h => hij (by rw [h]))

/-! ### Policy evaluation: `compute_state_values` (FiniteMDP.py lines 79-116)

A transition tensor `P` and reward tensor `R` are functions
`Nat → Nat → Nat → ℚ` (indices `s a s'`), a policy is `Nat → Nat → ℚ`
(indices `s a`).  The value buffer is a `List ℚ` of length `S`. -/

/-- The inner two loops of one state update (lines 91-100): the value
accumulated for state `s`, reading successor values from the buffer
described by the function `src`.  The `if policy s a = 0 then 0` branch
mirrors the `continue` short-cut of lines 93-94. -/
def stateValue (policy : Nat → Nat → ℚ) (P R : Nat → Nat → Nat → ℚ)
    (discountGamma : ℚ) (S A : Nat) (src : Nat → ℚ) (s : Nat) : ℚ :=
  ∑ a in Finset.range A,
    (if policy s a = 0 then 0
     else ∑ nexts in Finset.range S,
       policy s a * P s a nexts * (R s a nexts + discountGamma * src nexts))

/-- Fold writing `f buf s` into position `s` of the buffer, for
`s = 0, 1, ..., k-1` in order: the `for s in range(S)` loop of a sweep. -/
def setFold (f : List ℚ → Nat → ℚ) (V : List ℚ) (k : Nat) : List ℚ :=
  (List.range k).foldl (fun W s => W.set s (f W s)) V

/-- One full synchronous sweep of iterative policy evaluation over states
`0 .. S-1` (lines 89-100).  `W` is the buffer holding the previous sweep's
values (at sweep start `new_state_values` and `state_values` are equal
copies).  When `in_place` is set, `src` aliases the buffer being written
(`new_state_values`), so states already updated in this sweep are read
back; otherwise `src` is the untouched previous buffer `state_values`. -/
def policyEvalSweep (policy : Nat → Nat → ℚ) (P R : Nat → Nat → Nat → ℚ)
    (discountGamma : ℚ) (S A : Nat) (in_place : Bool) (W : List ℚ) : List ℚ :=
  setFold
    (fun buf s =>
      stateValue policy P R discountGamma S A
        (fun nexts => (if in_place then buf else W).getD nexts 0) s)
    W S

/-- `np.sum(np.abs(new_state_values - state_values))` for length-`S`
buffers (line 103). -/
def improvementOf (S : Nat) (newV V : List ℚ) : ℚ :=
  ∑ s in Finset.range S, |newV.getD s 0 - V.getD s 0|

/-- The `while True` loop of `compute_state_values` (lines 88-114) with an
explicit fuel.  Returns the converged buffer together with the value of
the `iteration` counter at the sweep whose improvement fell below `1e-4`. -/
def csvLoop (policy : Nat → Nat → ℚ) (P R : Nat → Nat → Nat → ℚ)
    (discountGamma : ℚ) (S A : Nat) (in_place : Bool) :
    Nat → List ℚ → Nat → Option (List ℚ × Nat)
  | 0, _, _ => none
  | fuel + 1, V, iteration =>
      let newV := policyEvalSweep policy P R discountGamma S A in_place V
      if improvementOf S newV V < 1 / 10000 then some (newV, iteration)
      else csvLoop policy P R discountGamma S A in_place fuel newV (iteration + 1)

/-- `compute_state_values` (lines 79-116): iterative policy evaluation
starting from the all-zero value buffer, `iteration` starting at 1. -/
def compute_state_values (policy : Nat → Nat → ℚ) (P R : Nat → Nat → Nat → ℚ)
    (discountGamma : ℚ) (S A : Nat) (in_place : Bool) (fuel : Nat) :
    Option (List ℚ × Nat) :=
  csvLoop policy P R discountGamma S A in_place fuel (List.replicate S 0) 1

/-- The sequence of buffers produced by successive sweeps of
`compute_state_values`: `csvIter k` is the buffer after `k` sweeps. -/
def csvIter (policy : Nat → Nat → ℚ) (P R : Nat → Nat → Nat → ℚ)
    (discountGamma : ℚ) (S A : Nat) (in_place : Bool) : Nat → List ℚ
  | 0 => List.replicate S 0
  | k + 1 => policyEvalSweep policy P R discountGamma S A in_place
      (csvIter policy P R discountGamma S A in_place k)

/-! ### Optimal state values: `compute_optimal_state_values` (lines 121-154) -/

/-- The body of the `for s` loop (lines 131-140): build the list
`a_candidates` of one-step values for each action and take `np.max`. -/
def bellmanV (P R : Nat → Nat → Nat → ℚ) (discountGamma : ℚ) (S A : Nat)
    (V : List ℚ) (s : Nat) : ℚ :=
  npMax ((List.range A).map (fun a =>
    ∑ nexts in Finset.range S,
      P s a nexts * (R s a nexts + discountGamma * V.getD nexts 0)))

/-- One synchronous sweep of value iteration: every state recomputed from
the previous full buffer. -/
def osvSweep (P R : Nat → Nat → Nat → ℚ) (discountGamma : ℚ) (S A : Nat)
    (V : List ℚ) : List ℚ :=
  (List.range S).map (bellmanV P R discountGamma S A V)

/-- The `while True` loop of `compute_optimal_state_values`
(lines 130-152) with explicit fuel. -/
def osvLoop (P R : Nat → Nat → Nat → ℚ) (discountGamma : ℚ) (S A : Nat) :
    Nat → List ℚ → Nat → Option (List ℚ × Nat)
  | 0, _, _ => none
  | fuel + 1, V, iteration =>
      let newV := osvSweep P R discountGamma S A V
      if improvementOf S newV V < 1 / 10000 then some (newV, iteration)
      else osvLoop P R discountGamma S A fuel newV (iteration + 1)

/-- `compute_optimal_state_values` (lines 121-154). -/
def compute_optimal_state_values (P R : Nat → Nat → Nat → ℚ)
    (discountGamma : ℚ) (S A : Nat) (fuel : Nat) : Option (List ℚ × Nat) :=
  osvLoop P R discountGamma S A fuel (List.replicate S 0) 1

/-- Buffer after `k` sweeps of value iteration. -/
def vIter (P R : Nat → Nat → Nat → ℚ) (discountGamma : ℚ) (S A : Nat) :
    Nat → List ℚ
  | 0 => List.replicate S 0
  | k + 1 => osvSweep P R discountGamma S A (vIter P R discountGamma S A k)

/-! ### Optimal action values: `compute_optimal_action_values`
(lines 156-196).  The table is a `List (List ℚ)` of shape `S × A`. -/

/-- The `best_a` inner loop (lines 174-178): running maximum of row
`nexts` of the previous table, over `nexta in range(A)`. -/
def rowMaxQ (A : Nat) (Q : List (List ℚ)) (nexts : Nat) : ℚ :=
  npMax ((List.range A).map (fun nexta => (Q.getD nexts []).getD nexta 0))

/-- One entry of a sweep (lines 169-182): the new value of `Q[s, a]`,
computed from the previous full table. -/
def qBellman (P R : Nat → Nat → Nat → ℚ) (discountGamma : ℚ) (S A : Nat)
    (Q : List (List ℚ)) (s a : Nat) : ℚ :=
  ∑ nexts in Finset.range S,
    P s a nexts * (R s a nexts + discountGamma * rowMaxQ A Q nexts)

/-- One synchronous sweep over all `(s, a)` entries (lines 167-182). -/
def oavSweep (P R : Nat → Nat → Nat → ℚ) (discountGamma : ℚ) (S A : Nat)
    (Q : List (List ℚ)) : List (List ℚ) :=
  (List.range S).map (fun s =>
    (List.range A).map (fun a => qBellman P R discountGamma S A Q s a))

/-- `np.sum(np.abs(new_action_values - action_values))` over the `S × A`
matrix (line 183). -/
def improvementQ (S A : Nat) (newQ Q : List (List ℚ)) : ℚ :=
  ∑ s in Finset.range S, ∑ a in Finset.range A,
    |(newQ.getD s []).getD a 0 - (Q.getD s []).getD a 0|

/-- The `while True` loop of `compute_optimal_action_values`
(lines 165-194) with explicit fuel. -/
def oavLoop (P R : Nat → Nat → Nat → ℚ) (discountGamma : ℚ) (S A : Nat) :
    Nat → List (List ℚ) → Nat → Option (List (List ℚ) × Nat)
  | 0, _, _ => none
  | fuel + 1, Q, iteration =>
      let newQ := oavSweep P R discountGamma S A Q
      if improvementQ S A newQ Q < 1 / 10000 then some (newQ, iteration)
      else oavLoop P R discountGamma S A fuel newQ (iteration + 1)

/-- `compute_optimal_action_values` (lines 156-196). -/
def compute_optimal_action_values (P R : Nat → Nat → Nat → ℚ)
    (discountGamma : ℚ) (S A : Nat) (fuel : Nat) :
    Option (List (List ℚ) × Nat) :=
  oavLoop P R discountGamma S A fuel
    (List.replicate S (List.replicate A 0)) 1

/-- Table after `k` sweeps of action-value iteration. -/
def qIter (P R : Nat → Nat → Nat → ℚ) (discountGamma : ℚ) (S A : Nat) :
    Nat → List (List ℚ)
  | 0 => List.replicate S (List.replicate A 0)
  | k + 1 => oavSweep P R discountGamma S A (qIter P R discountGamma S A k)

/-! ### Greedy policy extraction: `convert_action_values_into_policy`
(lines 198-206) -/

/-- Number of entries of a row equal to its maximum
(`len(maxIndices[0])` on line 205). -/
def countMaxOf (row : List ℚ) : Nat :=
  (row.filter (fun v => v = npMax row)).length

/-- `convert_action_values_into_policy` (lines 198-206): rows of the
action-value table are mapped to rows placing probability
`1 / len(maxIndices[0])` on each maximising entry and `0` elsewhere
(the table starts as `np.zeros((S, A))` and only maximising positions
are assigned). -/
def convert_action_values_into_policy (action_values : List (List ℚ)) :
    List (List ℚ) :=
  action_values.map (fun row =>
    row.map (fun v => if v = npMax row then 1 / (countMaxOf row : ℚ) else 0))

/-! ### Rollout driver: `run_MDP_for_given_policy` (lines 212-246)

The weight normalisation of lines 219-230 is a pure transformation of the
current state's policy row; the action drawn by `random.choices` and the
environment's step outcome are abstracted by oracles: `rew i` is the
reward reported by the `i`-th `step` call and `dne i` its `done` flag. -/

/-- `1e-30`, the tiny positive epsilon of line 228. -/
def tinyEps : ℚ := 1 / 10 ^ 30

/-- Lines 219-222: `myweights = policy[s]`; if the row sums to zero it is
replaced by `np.ones`. -/
def baseWeights (A : Nat) (row : Nat → ℚ) : Nat → ℚ :=
  if (∑ a in Finset.range A, row a) = 0 then fun _ => 1 else row

/-- Lines 226-228: the shift added to every entry when the minimum weight
is negative (`-minWeight + 1e-30`), and `0` otherwise. -/
def weightShift (A : Nat) (row : Nat → ℚ) : ℚ :=
  let m := npMin ((List.range A).map (baseWeights A row))
  if m < 0 then -m + tinyEps else 0

/-- The weights after the zero-sum replacement and the negativity shift. -/
def shiftedWeights (A : Nat) (row : Nat → ℚ) : Nat → ℚ :=
  fun a => baseWeights A row a + weightShift A row

/-- Lines 229-230: the final normalised weight vector passed to
`random.choices` (line 231). -/
def sampleWeights (A : Nat) (row : Nat → ℚ) : Nat → ℚ :=
  fun a => shiftedWeights A row a / ∑ b in Finset.range A, shiftedWeights A row b

/-- The `for it in range(maxNumIterations)` loop of lines 218-244, with
oracles for the realized step rewards and done flags.  Returns the
accumulated `totalReward` and the number of `step` calls executed; the
loop leaves early right after a step whose `done` flag is set. -/
def runLoop (rew : Nat → ℚ) (dne : Nat → Bool) : Nat → Nat → ℚ × Nat
  | 0, _ => (0, 0)
  | n + 1, i =>
      if dne i then (rew i, 1)
      else
        let rest := runLoop rew dne n (i + 1)
        (rew i + rest.1, rest.2 + 1)

/-- `run_MDP_for_given_policy` (lines 212-246): the episode is executed
and `totalReward` accumulated (and possibly printed), but the function
body has no `return` statement, so the caller receives Python's `None`,
modelled as `none`. -/
def run_MDP_for_given_policy (policy : Nat → Nat → ℚ) (rew : Nat → ℚ)
    (dne : Nat → Bool) (maxNumIterations : Nat) : Option ℚ :=
  match runLoop rew dne maxNumIterations 0 with
  | (_totalReward, _steps) => none

/-! ### Q-learning: `q_learning` (lines 253-271) and `chooseAction`
(lines 274-280)

The mutable `stateActionValues` table is a function `Nat → Nat → ℚ`
updated entry-wise.  The realized action of each step (drawn by
`chooseAction`) and the state reached by the environment are oracles. -/

/-- `np.max(stateActionValues[newState, :])` (line 267): maximum of row
`s` of a function-represented table over actions `0 .. A-1`. -/
def rowMaxFn (A : Nat) (Q : Nat → Nat → ℚ) (s : Nat) : ℚ :=
  npMax ((List.range A).map (Q s))

/-- Point update of a function-represented `S × A` table. -/
def upd2 (Q : Nat → Nat → ℚ) (s a : Nat) (v : ℚ) : Nat → Nat → ℚ :=
  fun x y => if x = s then (if y = a then v else Q x y) else Q x y

/-- One iteration of the `q_learning` loop body (lines 258-269) given the
realized transition: the reported `stepReward` (line 260) is shadowed by
the reward-tensor lookup at `(s, a, s')` (line 262), the accumulated
reward is increased by that looked-up value, and `Q[s, a]` is updated in
place.  Returns the new table and the reward that was used. -/
def qLearnStep (R : Nat → Nat → Nat → ℚ) (discountGamma stepSizeAlpha : ℚ)
    (A : Nat) (stepReward : ℚ) (Q : Nat → Nat → ℚ) (s a s' : Nat) :
    (Nat → Nat → ℚ) × ℚ :=
  let reward := stepReward
  let reward := R s a s'
  (upd2 Q s a (Q s a +
      stepSizeAlpha * (reward + discountGamma * rowMaxFn A Q s' - Q s a)),
    reward)

/-- State threaded through the `q_learning` loop: the table, the current
state and the accumulated rewards. -/
structure QLState where
  Q : Nat → Nat → ℚ
  s : Nat
  rewards : ℚ

/-- The `for numIterations in range(maxNumIterationsQLearning)` loop
(lines 257-269).  `acts i` is the action chosen at step `i`, `nextS i`
the state the environment reaches, `stepRew i` the reward reported by
`step` (which the code discards in favour of the tensor lookup). -/
def qLoop (R : Nat → Nat → Nat → ℚ) (discountGamma stepSizeAlpha : ℚ)
    (A : Nat) (acts nextS : Nat → Nat) (stepRew : Nat → ℚ)
    (init : QLState) : Nat → QLState
  | 0 => init
  | n + 1 =>
      let st := qLoop R discountGamma stepSizeAlpha A acts nextS stepRew init n
      let res := qLearnStep R discountGamma stepSizeAlpha A (stepRew n)
        st.Q st.s (acts n) (nextS n)
      ⟨res.1, nextS n, st.rewards + res.2⟩

/-- `q_learning` (lines 253-271): runs the episode and returns
`rewards / maxNumIterationsQLearning` (line 271), the normalised
per-step mean, not the raw accumulated total. -/
def q_learning (R : Nat → Nat → Nat → ℚ) (discountGamma stepSizeAlpha : ℚ)
    (A : Nat) (acts nextS : Nat → Nat) (stepRew : Nat → ℚ) (s0 : Nat)
    (Q0 : Nat → Nat → ℚ) (maxNumIterationsQLearning : Nat) : ℚ :=
  (qLoop R discountGamma stepSizeAlpha A acts nextS stepRew ⟨Q0, s0, 0⟩
      maxNumIterationsQLearning).rewards / (maxNumIterationsQLearning : ℚ)

/-- Support of `np.random.binomial(1, p)` (line 276): `{0}` when `p = 0`,
`{1}` when `p = 1`, `{0, 1}` otherwise. -/
def binomialSupport (p : ℚ) : List Nat :=
  if p = 0 then [0] else if p = 1 then [1] else [0, 1]

/-- Line 280's comprehension: the actions whose value equals the row
maximum (`value_ == np.max(values_)`), in index order. -/
def greedyCandidates (A : Nat) (Qrow : Nat → ℚ) : List Nat :=
  (List.range A).filter (fun a => Qrow a = npMax ((List.range A).map Qrow))

/-- The set of actions `chooseAction` (lines 274-280) can return, as a
list: for each possible outcome of the binomial draw, either any action
of `np.arange(A)` (exploration branch, line 277) or any greedy candidate
(line 280). -/
def chooseActionSupport (explorationProbEpsilon : ℚ) (A : Nat)
    (Qrow : Nat → ℚ) : List Nat :=
  (binomialSupport explorationProbEpsilon).flatMap (fun b =>
    if b = 1 then List.range A else greedyCandidates A Qrow)

/-! ### Constructor: `FiniteMDP.__init__` (lines 36-50) -/

/-- A gym space as seen by the constructor: either `spaces.Discrete(n)`
or some non-discrete space. -/
inductive GymSpace where
  | discrete (n : Nat)
  | nondiscrete
deriving DecidableEq

/-- The part of a gym environment the constructor inspects. -/
structure GymEnv where
  action_space : GymSpace
  observation_space : GymSpace

/-- The state of a freshly constructed `FiniteMDP` object: sizes copied
from the spaces, counters zeroed (lines 44-49), and `reset()` called on
the environment (line 50). -/
structure FiniteMDPState where
  S : Nat
  A : Nat
  currentObservation : Nat
  currentIteration : Nat
  resetCalled : Bool
deriving DecidableEq

/-- `FiniteMDP.__init__` (lines 36-50): two bare `assert isinstance`
checks that both spaces are discrete (lines 41-42, raising an unadorned
`AssertionError` otherwise), then field initialisation and a reset.  The
constructor receives no policy or table, so no size compatibility with
any policy/table is (or could be) checked. -/
def FiniteMDP_init (environment : GymEnv) : Except String FiniteMDPState :=
  match environment.action_space with
  | GymSpace.nondiscrete => Except.error "AssertionError"
  | GymSpace.discrete a =>
      match environment.observation_space with
      | GymSpace.nondiscrete => Except.error "AssertionError"
      | GymSpace.discrete s => Except.ok ⟨s, a, 0, 0, true⟩

/-! ### Lemmas about the in-order buffer fold of a sweep -/

theorem setFold_zero (f : List ℚ → Nat → ℚ) (V : List ℚ) : setFold f V 0 = V := rfl

theorem setFold_succ (f : List ℚ → Nat → ℚ) (V : List ℚ) (k : Nat) :
    setFold f V (k + 1) = (setFold f V k).set k (f (setFold f V k) k) := by
  unfold setFold
  rw [List.range_succ, List.foldl_append]
  rfl

theorem setFold_length (f : List ℚ → Nat → ℚ) (V : List ℚ) :
    ∀ k, (setFold f V k).length = V.length := by
  intro k
  induction k with
  | zero => rfl
  | succ m ih => rw [setFold_succ, List.length_set, ih]

theorem setFold_untouched (f : List ℚ → Nat → ℚ) (V : List ℚ) :
    ∀ k j, k ≤ j → (setFold f V k).getD j 0 = V.getD j 0 := by
  intro k
  induction k with
  | zero => intro j _; rfl
  | succ m ih =>
      intro j hj
      rw [setFold_succ, getD_set_ne _ _ _ _ (Nat.ne_of_lt hj)]
      exact ih j (Nat.le_of_succ_le hj)

theorem setFold_frozen (f : List ℚ → Nat → ℚ) (V : List ℚ) :
    ∀ m k j, j < k → k ≤ m → (setFold f V m).getD j 0 = (setFold f V k).getD j 0 := by
  intro m
  induction m with
  | zero =>
      intro k j hjk hkm
      rw [Nat.le_zero.mp hkm]
  | succ n ih =>
      intro k j hjk hkm
      rcases Nat.lt_or_ge k (n + 1) with h | h
      · have hj : j ≠ n := Nat.ne_of_lt (Nat.lt_of_lt_of_le hjk (Nat.lt_succ_iff.mp h))
        rw [setFold_succ, getD_set_ne _ _ _ _ (fun he => hj he.symm)]
        exact ih k j hjk (Nat.lt_succ_iff.mp h)
      · rw [Nat.le_antisymm hkm h]

theorem setFold_hit (f : List ℚ → Nat → ℚ) (V : List ℚ) (j : Nat)
    (hj : j < V.length) :
    (setFold f V (j + 1)).getD j 0 = f (setFold f V j) j := by
  rw [setFold_succ]
  exact getD_set_self _ _ _ (by rw [setFold_length]; exact hj)

/-- The buffer the sweep's state-`s` update actually reads: in-place mode
sees the entries already rewritten this sweep below `s` and the previous
sweep's entries from `s` up; two-buffer mode always sees the previous
sweep's buffer. -/
theorem policyEvalSweep_getD (policy : Nat → Nat → ℚ)
    (P R : Nat → Nat → Nat → ℚ) (discountGamma : ℚ) (S A : Nat)
    (in_place : Bool) (W : List ℚ) (hW : W.length = S) (s : Nat) (hs : s < S) :
    (policyEvalSweep policy P R discountGamma S A in_place W).getD s 0 =
      stateValue policy P R discountGamma S A
        (fun nexts =>
          if in_place then
            (if nexts < s then
              (policyEvalSweep policy P R discountGamma S A in_place W).getD nexts 0
            else W.getD nexts 0)
          else W.getD nexts 0) s := by
  set f : List ℚ → Nat → ℚ := fun buf t =>
    stateValue policy P R discountGamma S A
      (fun nexts => (if in_place then buf else W).getD nexts 0) t with hf
  have hsweep : policyEvalSweep policy P R discountGamma S A in_place W
      = setFold f W S := rfl
  have h1 : (setFold f W S).getD s 0 = (setFold f W (s + 1)).getD s 0 :=
    setFold_frozen f W S (s + 1) s (Nat.lt_succ_self s) hs
  have h2 : (setFold f W (s + 1)).getD s 0 = f (setFold f W s) s :=
    setFold_hit f W s (by rw [hW]; exact hs)
  rw [hsweep, h1, h2, hf]
  cases in_place with
  | false => rfl
  | true =>
      refine congrArg (fun src => stateValue policy P R discountGamma S A src s) ?_
      funext nexts
      show (setFold f W s).getD nexts 0
        = if nexts < s then (setFold f W S).getD nexts 0 else W.getD nexts 0
      by_cases hns : nexts < s
      · rw [if_pos hns,
          setFold_frozen f W S (nexts + 1) nexts (Nat.lt_succ_self nexts)
            (Nat.le_trans (Nat.succ_le_of_lt hns) (Nat.le_of_lt hs)),
          setFold_frozen f W s (nexts + 1) nexts (Nat.lt_succ_self nexts)
            (Nat.succ_le_of_lt hns)]
      · rw [if_neg hns, setFold_untouched f W s nexts (Nat.le_of_not_lt hns)]

/-- The skipped `policy[s, a] == 0` terms contribute nothing: the state
update equals the unconditional double sum, with `π[s, a]` factored out. -/
theorem stateValue_eq_sum (policy : Nat → Nat → ℚ) (P R : Nat → Nat → Nat → ℚ)
    (discountGamma : ℚ) (S A : Nat) (src : Nat → ℚ) (s : Nat) :
    stateValue policy P R discountGamma S A src s =
      ∑ a in Finset.range A, policy s a *
        ∑ nexts in Finset.range S,
          P s a nexts * (R s a nexts + discountGamma * src nexts) := by
  unfold stateValue
  refine Finset.sum_congr rfl ?_
  intro a _
  by_cases hp : policy s a = 0
  · rw [if_pos hp, hp, zero_mul]
  · rw [if_neg hp, Finset.mul_sum]
    refine Finset.sum_congr rfl ?_
    intro nexts _
    ring

/-- What a successful run of the policy-evaluation loop returns, relative
to the sweep sequence `csvIter`: starting the loop at the `k`-th sweep
with iteration counter `k + 1`. -/
theorem csvLoop_spec (policy : Nat → Nat → ℚ) (P R : Nat → Nat → Nat → ℚ)
    (discountGamma : ℚ) (S A : Nat) (in_place : Bool) :
    ∀ fuel k V it,
      csvLoop policy P R discountGamma S A in_place fuel
          (csvIter policy P R discountGamma S A in_place k) (k + 1) = some (V, it) →
      k + 1 ≤ it ∧
      V = csvIter policy P R discountGamma S A in_place it ∧
      improvementOf S (csvIter policy P R discountGamma S A in_place it)
          (csvIter policy P R discountGamma S A in_place (it - 1)) < 1 / 10000 ∧
      ∀ j, k + 1 ≤ j → j < it →
        1 / 10000 ≤ improvementOf S (csvIter policy P R discountGamma S A in_place j)
          (csvIter policy P R discountGamma S A in_place (j - 1)) := by
  intro fuel
  induction fuel with
  | zero => intro k V it h; cases h
  | succ f ih =>
      intro k V it h
      have hstep : policyEvalSweep policy P R discountGamma S A in_place
          (csvIter policy P R discountGamma S A in_place k)
          = csvIter policy P R discountGamma S A in_place (k + 1) := rfl
      simp only [csvLoop, hstep] at h
      by_cases himp : improvementOf S
          (csvIter policy P R discountGamma S A in_place (k + 1))
          (csvIter policy P R discountGamma S A in_place k) < 1 / 10000
      · rw [if_pos himp] at h
        simp only [Option.some.injEq, Prod.mk.injEq] at h
        obtain ⟨hV, hit⟩ := h
        subst hit
        refine ⟨Nat.le_refl _, hV.symm, ?_, ?_⟩
        · rw [Nat.add_sub_cancel]; exact himp
        · intro j hj1 hj2; exact absurd (Nat.lt_of_le_of_lt hj1 hj2) (Nat.lt_irrefl _)
      · rw [if_neg himp] at h
        obtain ⟨h1, h2, h3, h4⟩ := ih (k + 1) V it h
        refine ⟨Nat.le_trans (Nat.le_succ _) h1, h2, h3, ?_⟩
        intro j hj1 hj2
        rcases Nat.lt_or_ge j (k + 2) with hj | hj
        · have hjk : j = k + 1 := Nat.le_antisymm (Nat.lt_succ_iff.mp hj) hj1
          subst hjk
          rw [Nat.add_sub_cancel]
          exact le_of_not_lt himp
        · exact h4 j hj hj2

/-- Claim C1.  For every policy with non-negative entries, tensors `P`,
`R` and discount `γ ∈ [0, 1)`, whenever `compute_state_values` terminates
it returns the buffer obtained by iterating full sweeps from the zero
vector, stopping at the first sweep whose summed absolute difference from
the previous buffer falls below `1e-4`, together with the iteration
count; and every sweep writes into each state `s < S` the value
`Σ_a π[s,a] · Σ_s' P[s,a,s'] · (R[s,a,s'] + γ·V_src[s'])`, where `V_src`
is the buffer being updated itself (entries below `s` already rewritten)
in in-place mode and the previous sweep's buffer otherwise; terms with
`π[s,a] = 0` contribute nothing (the sum is the unconditional one). -/
theorem compute_state_values_spec (policy : Nat → Nat → ℚ)
    (P R : Nat → Nat → Nat → ℚ) (discountGamma : ℚ) (S A : Nat)
    (in_place : Bool) (fuel : Nat) (V : List ℚ) (it : Nat)
    (hpol : ∀ s a, 0 ≤ policy s a) (hg0 : 0 ≤ discountGamma)
    (hg1 : discountGamma < 1)
    (hrun : compute_state_values policy P R discountGamma S A in_place fuel
      = some (V, it)) :
    1 ≤ it ∧
    V = csvIter policy P R discountGamma S A in_place it ∧
    improvementOf S (csvIter policy P R discountGamma S A in_place it)
        (csvIter policy P R discountGamma S A in_place (it - 1)) < 1 / 10000 ∧
    (∀ j, 1 ≤ j → j < it →
      1 / 10000 ≤ improvementOf S (csvIter policy P R discountGamma S A in_place j)
        (csvIter policy P R discountGamma S A in_place (j - 1))) ∧
    (∀ W s, W.length = S → s < S →
      (policyEvalSweep policy P R discountGamma S A in_place W).getD s 0 =
        ∑ a in Finset.range A, policy s a *
          ∑ nexts in Finset.range S, P s a nexts *
            (R s a nexts + discountGamma *
              (if in_place then
                (if nexts < s then
                  (policyEvalSweep policy P R discountGamma S A in_place W).getD nexts 0
                else W.getD nexts 0)
              else W.getD nexts 0))) := by
  have h0 : csvIter policy P R discountGamma S A in_place 0
      = List.replicate S 0 := rfl
  have hloop := csvLoop_spec policy P R discountGamma S A in_place fuel 0 V it
  rw [h0] at hloop
  obtain ⟨h1, h2, h3, h4⟩ := hloop hrun
  refine ⟨h1, h2, h3, h4, ?_⟩
  intro W s hW hs
  rw [policyEvalSweep_getD policy P R discountGamma S A in_place W hW s hs,
    stateValue_eq_sum]

/-- Witness for C1: a one-state, one-action MDP with zero rewards and
`γ = 0`; policy evaluation converges at the very first sweep, returning
the zero buffer and iteration count 1. -/
theorem compute_state_values_spec_witness :
    compute_state_values (fun _ _ => 1) (fun _ _ _ => 1) (fun _ _ _ => 0) 0 1 1
        false 1 = some ([0], 1) ∧
    ([0] : List ℚ)
      = csvIter (fun _ _ => 1) (fun _ _ _ => 1) (fun _ _ _ => 0) 0 1 1 false 1 := by
  have hrun : compute_state_values (fun _ _ => 1) (fun _ _ _ => 1)
      (fun _ _ _ => 0) 0 1 1 false 1 = some ([0], 1) := by decide!
  exact ⟨hrun,
    (compute_state_values_spec (fun _ _ => 1) (fun _ _ _ => 1) (fun _ _ _ => 0)
      0 1 1 false 1 [0] 1 (fun _ _ => zero_le_one) (le_refl 0) zero_lt_one
      hrun).2.1⟩

theorem npMax_all_eq (l : List ℚ) (c : ℚ) (hne : l ≠ [])
    (hall : ∀ x ∈ l, x = c) : npMax l = c :=
  hall (npMax l) (npMax_mem l hne)

theorem vIter_length (P R : Nat → Nat → Nat → ℚ) (discountGamma : ℚ)
    (S A : Nat) : ∀ k, (vIter P R discountGamma S A k).length = S := by
  intro k
  cases k with
  | zero => exact List.length_replicate S 0
  | succ m =>
      show (osvSweep P R discountGamma S A _).length = S
      unfold osvSweep
      rw [List.length_map, List.length_range]

/-- Claim C2 (amended).  Action-value iteration is value iteration lifted
to action space, exactly: after any number `k` of sweeps on identical
`(P, R, γ)`, the row-wise maximum of the action-value table equals the
state-value buffer, entry for entry, with no tolerance needed.  (The two
loops' stopping tests differ — one sums `S` absolute deltas, the other
`S·A` — so the *returned* tables generally come from different sweep
counts and can differ by more than the tolerance; see the
counterexample.) -/
theorem rowMaxQ_qIter_eq_vIter (P R : Nat → Nat → Nat → ℚ)
    (discountGamma : ℚ) (S A : Nat) (hA : 1 ≤ A) :
    ∀ k s, s < S →
      rowMaxQ A (qIter P R discountGamma S A k) s
        = (vIter P R discountGamma S A k).getD s 0 := by
  intro k
  induction k with
  | zero =>
      intro s hs
      unfold rowMaxQ
      have hrow : (qIter P R discountGamma S A 0).getD s [] = List.replicate A 0 := by
        show (List.replicate S (List.replicate A (0:ℚ))).getD s [] = List.replicate A 0
        exact getD_replicate _ _ S s hs
      rw [hrow]
      have hzeros : ∀ x ∈ (List.range A).map
          (fun nexta => (List.replicate A (0:ℚ)).getD nexta 0), x = 0 := by
        intro x hx
        obtain ⟨a, _, rfl⟩ := List.mem_map.mp hx
        cases Nat.lt_or_ge a A with
        | inl h => exact getD_replicate _ _ A a h
        | inr h => exact List.getD_eq_default _ _ (by rw [List.length_replicate]; exact h)
      have hne : (List.range A).map
          (fun nexta => (List.replicate A (0:ℚ)).getD nexta 0) ≠ [] := by
        intro hnil
        have := congrArg List.length hnil
        rw [List.length_map, List.length_range] at this
        exact Nat.pos_iff_ne_zero.mp hA this
      rw [npMax_all_eq _ 0 hne hzeros]
      exact (getD_replicate _ _ S s hs).symm
  | succ k ih =>
      intro s hs
      have hrow : (qIter P R discountGamma S A (k + 1)).getD s []
          = (List.range A).map
              (fun a => qBellman P R discountGamma S A
                (qIter P R discountGamma S A k) s a) := by
        show ((List.range S).map _).getD s [] = _
        exact getD_map_range _ [] S s hs
      have hmap : (List.range A).map
            (fun nexta => ((qIter P R discountGamma S A (k + 1)).getD s []).getD nexta 0)
          = (List.range A).map
              (fun a => ∑ nexts in Finset.range S,
                P s a nexts * (R s a nexts + discountGamma *
                  (vIter P R discountGamma S A k).getD nexts 0)) := by
        refine List.map_congr_left ?_
        intro a ha
        rw [hrow, getD_map_range _ 0 A a (List.mem_range.mp ha)]
        unfold qBellman
        refine Finset.sum_congr rfl ?_
        intro nexts hn
        rw [ih nexts (List.mem_range.mp hn)]
      unfold rowMaxQ
      rw [hmap]
      have hv : (vIter P R discountGamma S A (k + 1)).getD s 0
          = bellmanV P R discountGamma S A (vIter P R discountGamma S A k) s := by
        show (osvSweep P R discountGamma S A _).getD s 0 = _
        unfold osvSweep
        exact getD_map_range _ 0 S s hs
      rw [hv]
      rfl

/-- Witness for the amended C2 on a concrete instance: one sweep of a
one-state, one-action MDP. -/
theorem rowMaxQ_qIter_eq_vIter_witness :
    rowMaxQ 1 (qIter (fun _ _ _ => 1) (fun _ _ _ => 1) (1/2) 1 1 1) 0
      = (vIter (fun _ _ _ => 1) (fun _ _ _ => 1) (1/2) 1 1 1).getD 0 0 :=
  rowMaxQ_qIter_eq_vIter (fun _ _ _ => 1) (fun _ _ _ => 1) (1/2) 1 1
    (le_refl 1) 1 0 Nat.zero_lt_one

/-- Counterexample to C2 as stated: with `S = 1`, `A = 8`,
`P[s,a,s'] = 1` (each row sums to 1), `R = 1`, `γ = 2/3`, both iterations
converge — value iteration stops after sweep 24, action-value iteration
only after sweep 29 because its improvement sums over all 8 actions — and
the returned `max_a Q*[0,a]` differs from the returned `V*[0]` by about
`1.55e-4`, which is not within the `1e-4` convergence tolerance. -/
theorem optimal_values_tolerance_counterexample :
    compute_optimal_state_values (fun _ _ _ => 1) (fun _ _ _ => 1) (2/3) 1 8 40
      = some ([(282412759265 : ℚ)/94143178827], 24) ∧
    compute_optimal_action_values (fun _ _ _ => 1) (fun _ _ _ => 1) (2/3) 1 8 40
      = some ([List.replicate 8 ((68629840493971 : ℚ)/22876792454961)], 29) ∧
    (∀ s ∈ Finset.range 1, ∀ a ∈ Finset.range 8,
      (∑ nexts in Finset.range 1, (fun _ _ _ => (1:ℚ)) s a nexts) = 1) ∧
    (0:ℚ) ≤ 2/3 ∧ (2/3:ℚ) < 1 ∧
    1/10000 ≤ |rowMaxQ 8 [List.replicate 8 ((68629840493971 : ℚ)/22876792454961)] 0
      - ([(282412759265 : ℚ)/94143178827] : List ℚ).getD 0 0| := by
  refine ⟨by decide!, by decide!, by decide!, by decide!, by decide!, by decide!⟩

/-- Claim C3.  Each step of a `q_learning` episode uses the reward looked
up from the reward tensor at the realized `(s, a, s')` triple — the
step-reported reward is discarded, so the step result does not depend on
it — both for accumulation and for the update; the update rewrites
`Q[s, a]` to `Q[s, a] + α·(r + γ·max_a' Q[s_next, a'] − Q[s, a])` and
leaves every other entry unchanged; and the episode loop is exactly the
iteration of this step, adding the looked-up reward to the accumulator. -/
theorem q_learning_step_spec (R : Nat → Nat → Nat → ℚ)
    (discountGamma stepSizeAlpha : ℚ) (A : Nat) (acts nextS : Nat → Nat)
    (stepRew : Nat → ℚ) (Q : Nat → Nat → ℚ) (s a s' : Nat) (rho : ℚ) :
    (qLearnStep R discountGamma stepSizeAlpha A rho Q s a s').2 = R s a s' ∧
    (∀ rho' : ℚ, qLearnStep R discountGamma stepSizeAlpha A rho Q s a s'
      = qLearnStep R discountGamma stepSizeAlpha A rho' Q s a s') ∧
    (qLearnStep R discountGamma stepSizeAlpha A rho Q s a s').1 s a
      = Q s a + stepSizeAlpha *
          (R s a s' + discountGamma * rowMaxFn A Q s' - Q s a) ∧
    (∀ x y, ¬(x = s ∧ y = a) →
      (qLearnStep R discountGamma stepSizeAlpha A rho Q s a s').1 x y = Q x y) ∧
    (∀ (init : QLState) (n : Nat),
      qLoop R discountGamma stepSizeAlpha A acts nextS stepRew init (n + 1)
        = ⟨(qLearnStep R discountGamma stepSizeAlpha A (stepRew n)
              (qLoop R discountGamma stepSizeAlpha A acts nextS stepRew init n).Q
              (qLoop R discountGamma stepSizeAlpha A acts nextS stepRew init n).s
              (acts n) (nextS n)).1,
            nextS n,
            (qLoop R discountGamma stepSizeAlpha A acts nextS stepRew init n).rewards
              + (qLearnStep R discountGamma stepSizeAlpha A (stepRew n)
                  (qLoop R discountGamma stepSizeAlpha A acts nextS stepRew init n).Q
                  (qLoop R discountGamma stepSizeAlpha A acts nextS stepRew init n).s
                  (acts n) (nextS n)).2⟩) := by
  refine ⟨rfl, fun _ => rfl, ?_, ?_, fun _ _ => rfl⟩
  · show upd2 Q s a _ s a = _
    unfold upd2
    rw [if_pos rfl, if_pos rfl]
  · intro x y hxy
    show upd2 Q s a _ x y = Q x y
    unfold upd2
    by_cases hx : x = s
    · have hy : y ≠ a := fun h => hxy ⟨hx, h⟩
      rw [if_pos hx, if_neg hy, hx]
    · rw [if_neg hx]

/-- Witness for C3: concrete step on a 1×2 table; the entry away from the
updated `(0, 0)` is untouched. -/
theorem q_learning_step_spec_witness :
    (qLearnStep (fun _ _ _ => 2) (1/2) (1/10) 2 5 (fun _ _ => 0) 0 0 0).1 1 1 = 0 :=
  (q_learning_step_spec (fun _ _ _ => 2) (1/2) (1/10) 2 (fun _ => 0) (fun _ => 0)
    (fun _ => 5) (fun _ _ => 0) 0 0 0 5).2.2.2.1 1 1 (by decide)

/-- The loop's accumulator is the running sum of tensor-looked-up rewards
along the realized trajectory. -/
theorem qLoop_rewards (R : Nat → Nat → Nat → ℚ)
    (discountGamma stepSizeAlpha : ℚ) (A : Nat) (acts nextS : Nat → Nat)
    (stepRew : Nat → ℚ) (init : QLState) :
    ∀ n, (qLoop R discountGamma stepSizeAlpha A acts nextS stepRew init n).rewards
      = init.rewards + ∑ i in Finset.range n,
          R (qLoop R discountGamma stepSizeAlpha A acts nextS stepRew init i).s
            (acts i) (nextS i) := by
  intro n
  induction n with
  | zero => simp [qLoop]
  | succ m ih =>
      show (qLoop R discountGamma stepSizeAlpha A acts nextS stepRew init m).rewards
          + _ = _
      rw [ih, Finset.sum_range_succ, add_assoc]
      rfl

/-- Claim C10.  For a positive step count `n`, `q_learning` returns the
sum of the `n` tensor-looked-up rewards along the realized trajectory
divided by `n` — the per-step mean, not the undivided total. -/
theorem q_learning_mean_reward_spec (R : Nat → Nat → Nat → ℚ)
    (discountGamma stepSizeAlpha : ℚ) (A : Nat) (acts nextS : Nat → Nat)
    (stepRew : Nat → ℚ) (s0 : Nat) (Q0 : Nat → Nat → ℚ) (n : Nat)
    (hn : 0 < n) :
    q_learning R discountGamma stepSizeAlpha A acts nextS stepRew s0 Q0 n
      = (∑ i in Finset.range n,
          R (qLoop R discountGamma stepSizeAlpha A acts nextS stepRew
              ⟨Q0, s0, 0⟩ i).s (acts i) (nextS i)) / (n : ℚ) := by
  unfold q_learning
  rw [qLoop_rewards]
  norm_num

/-- Witness for C10: a single step with constant tensor reward 3 returns
mean `3 / 1 = 3`. -/
theorem q_learning_mean_reward_spec_witness :
    q_learning (fun _ _ _ => 3) (1/2) (1/10) 1 (fun _ => 0) (fun _ => 0)
        (fun _ => 7) 0 (fun _ _ => 0) 1
      = (∑ i in Finset.range 1,
          (fun _ _ _ => (3:ℚ)) (qLoop (fun _ _ _ => 3) (1/2) (1/10) 1
              (fun _ => 0) (fun _ => 0) (fun _ => 7) ⟨fun _ _ => 0, 0, 0⟩ i).s
            ((fun _ => 0) i) ((fun _ => 0) i)) / (1 : ℚ) :=
  q_learning_mean_reward_spec (fun _ _ _ => 3) (1/2) (1/10) 1 (fun _ => 0)
    (fun _ => 0) (fun _ => 7) 0 (fun _ _ => 0) 1 Nat.zero_lt_one

theorem sum_map_ite (m c : ℚ) : ∀ l : List ℚ,
    (l.map (fun v => if v = m then c else 0)).sum
      = ((l.filter (fun v => v = m)).length : ℚ) * c := by
  intro l
  induction l with
  | nil => simp
  | cons x xs ih =>
      by_cases hx : x = m
      · subst hx
        simp only [List.map_cons, List.sum_cons, List.filter_cons,
          decide_eq_true_eq, eq_self_iff_true, if_true, ih, List.length_cons]
        push_cast
        ring
      · simp only [List.map_cons, List.sum_cons, if_neg hx, List.filter_cons,
          decide_eq_true_eq, hx, if_false, ih, zero_add]

theorem countMaxOf_pos (row : List ℚ) (hne : row ≠ []) : 0 < countMaxOf row := by
  unfold countMaxOf
  have hmem : npMax row ∈ row.filter (fun v => v = npMax row) :=
    List.mem_filter.mpr ⟨npMax_mem row hne, by simp⟩
  exact List.length_pos.mpr (List.ne_nil_of_mem hmem)

/-- Claim C4.  For an `S × A` action-value matrix with `A ≥ 1`,
`convert_action_values_into_policy` gives every maximising action of a
row probability `1/k` (`k` the number of maximisers), every other action
probability `0`; each row sums to 1, and a row with a unique maximiser is
one-hot. -/
theorem convert_action_values_into_policy_spec (action_values : List (List ℚ))
    (A : Nat) (hA : 1 ≤ A) (hlen : ∀ row ∈ action_values, row.length = A)
    (s : Nat) (hs : s < action_values.length) :
    (∀ a, a < A →
      (action_values.getD s []).getD a 0 = npMax (action_values.getD s []) →
      ((convert_action_values_into_policy action_values).getD s []).getD a 0
        = 1 / (countMaxOf (action_values.getD s []) : ℚ)) ∧
    (∀ a, a < A →
      (action_values.getD s []).getD a 0 ≠ npMax (action_values.getD s []) →
      ((convert_action_values_into_policy action_values).getD s []).getD a 0
        = 0) ∧
    ((convert_action_values_into_policy action_values).getD s []).sum = 1 ∧
    (countMaxOf (action_values.getD s []) = 1 → ∀ a, a < A →
      ((convert_action_values_into_policy action_values).getD s []).getD a 0
        = if (action_values.getD s []).getD a 0
            = npMax (action_values.getD s []) then 1 else 0) := by
  set row := action_values.getD s [] with hrow
  have hrowmem : row ∈ action_values := by
    rw [hrow, List.getD_eq_getElem _ _ hs]
    exact List.getElem_mem _
  have hrlen : row.length = A := hlen row hrowmem
  have hrne : row ≠ [] := by
    intro h
    rw [h] at hrlen
    exact Nat.pos_iff_ne_zero.mp hA hrlen.symm
  have hprow : (convert_action_values_into_policy action_values).getD s []
      = row.map (fun v =>
          if v = npMax row then 1 / (countMaxOf row : ℚ) else 0) := by
    unfold convert_action_values_into_policy
    rw [getD_map _ [] [] action_values s hs]
  have hget : ∀ a, a < A →
      ((convert_action_values_into_policy action_values).getD s []).getD a 0
        = if row.getD a 0 = npMax row then 1 / (countMaxOf row : ℚ) else 0 := by
    intro a ha
    rw [hprow, getD_map _ 0 0 row a (by rw [hrlen]; exact ha)]
  have hk : 0 < countMaxOf row := countMaxOf_pos row hrne
  refine ⟨?_, ?_, ?_, ?_⟩
  · intro a ha hmax
    rw [hget a ha, if_pos hmax]
  · intro a ha hmax
    rw [hget a ha, if_neg hmax]
  · rw [hprow, sum_map_ite]
    show ((countMaxOf row : ℚ)) * (1 / (countMaxOf row : ℚ)) = 1
    have : (countMaxOf row : ℚ) ≠ 0 := by
      exact_mod_cast Nat.pos_iff_ne_zero.mp hk
    field_simp
  · intro hone a ha
    rw [hget a ha, hone]
    norm_num

/-- Witness for C4 on the 1×2 matrix `[[0, 1]]`: the unique maximiser
gets probability 1/1 and the row sums to 1. -/
theorem convert_action_values_into_policy_spec_witness :
    ((convert_action_values_into_policy [[0, 1]]).getD 0 []).sum = 1 :=
  (convert_action_values_into_policy_spec [[0, 1]] 2 (by decide)
    (by intro row hrow; simp at hrow; rw [hrow]; rfl) 0 (by decide)).2.2.1

/-- The rollout loop never executes more steps than its bound. -/
theorem runLoop_steps_le (rew : Nat → ℚ) (dne : Nat → Bool) :
    ∀ n i, (runLoop rew dne n i).2 ≤ n := by
  intro n
  induction n with
  | zero => intro i; exact Nat.le_refl 0
  | succ m ih =>
      intro i
      show (if dne i then _ else _ : ℚ × Nat).2 ≤ m + 1
      by_cases hd : dne i
      · rw [if_pos hd]; exact Nat.succ_le_succ (Nat.zero_le m)
      · rw [if_neg hd]; exact Nat.succ_le_succ (ih (i + 1))

/-- The minimum of the (base) weight row lower-bounds every in-range
entry. -/
theorem npMin_baseWeights_le (A : Nat) (row : Nat → ℚ) (a : Nat) (ha : a < A) :
    npMin ((List.range A).map (baseWeights A row)) ≤ baseWeights A row a :=
  npMin_le_of_mem _ _ (List.mem_map.mpr ⟨a, List.mem_range.mpr ha, rfl⟩)

/-- Claim C5.  In `run_MDP_for_given_policy`, for every policy row: a row
summing to zero is replaced by the all-ones vector; a row whose minimum
entry is negative is shifted by the magnitude of that minimum plus
`1e-30` before normalising; the normalised weight vector passed to
`random.choices` is entry-wise non-negative; and the episode loop
executes at most `maxNumIterations` steps even if `done` never fires. -/
theorem run_MDP_sampling_weights_spec (A : Nat) (row : Nat → ℚ)
    (rew : Nat → ℚ) (dne : Nat → Bool) (maxNumIterations : Nat)
    (hA : 1 ≤ A) :
    ((∑ a in Finset.range A, row a) = 0 → ∀ a, baseWeights A row a = 1) ∧
    (npMin ((List.range A).map (baseWeights A row)) < 0 →
      ∀ a, shiftedWeights A row a
        = baseWeights A row a
          + (-(npMin ((List.range A).map (baseWeights A row))) + 1 / 10 ^ 30)) ∧
    (∀ a, a < A → 0 ≤ sampleWeights A row a) ∧
    (∀ i, (runLoop rew dne maxNumIterations i).2 ≤ maxNumIterations) := by
  refine ⟨?_, ?_, ?_, fun i => runLoop_steps_le rew dne maxNumIterations i⟩
  · intro hz a
    unfold baseWeights
    rw [if_pos hz]
  · intro hm a
    unfold shiftedWeights weightShift tinyEps
    rw [if_pos hm]
  · intro a ha
    set m := npMin ((List.range A).map (baseWeights A row)) with hm
    have hnonempty : (Finset.range A).Nonempty :=
      ⟨0, Finset.mem_range.mpr (Nat.lt_of_lt_of_le Nat.zero_lt_one hA)⟩
    by_cases hneg : m < 0
    · have hpos : ∀ b, b < A → 0 < shiftedWeights A row b := by
        intro b hb
        unfold shiftedWeights weightShift
        rw [← hm, if_pos hneg]
        have h1 : m ≤ baseWeights A row b := npMin_baseWeights_le A row b hb
        have h2 : (0:ℚ) < tinyEps := by unfold tinyEps; positivity
        linarith
      have hsum : 0 < ∑ b in Finset.range A, shiftedWeights A row b :=
        Finset.sum_pos (fun b hb => hpos b (Finset.mem_range.mp hb)) hnonempty
      exact div_nonneg (le_of_lt (hpos a ha)) (le_of_lt hsum)
    · have hshift : ∀ b, shiftedWeights A row b = baseWeights A row b := by
        intro b
        unfold shiftedWeights weightShift
        rw [← hm, if_neg hneg, add_zero]
      have hbase : ∀ b, b < A → 0 ≤ baseWeights A row b := by
        intro b hb
        exact le_trans (le_of_not_lt hneg) (npMin_baseWeights_le A row b hb)
      have hsum : 0 < ∑ b in Finset.range A, shiftedWeights A row b := by
        have hsum0 : 0 ≤ ∑ b in Finset.range A, shiftedWeights A row b :=
          Finset.sum_nonneg (fun b hb =>
            (hshift b).symm ▸ hbase b (Finset.mem_range.mp hb))
        rcases lt_or_eq_of_le hsum0 with h | h
        · exact h
        · exfalso
          by_cases hz : (∑ b in Finset.range A, row b) = 0
          · have hone : ∀ b ∈ Finset.range A, shiftedWeights A row b = 1 := by
              intro b _
              rw [hshift b]
              unfold baseWeights
              rw [if_pos hz]
            have hsumA : (∑ b in Finset.range A, shiftedWeights A row b)
                = (A : ℚ) := by
              rw [Finset.sum_congr rfl hone, Finset.sum_const, Finset.card_range,
                nsmul_eq_mul, mul_one]
            have hA0 : (0:ℚ) < (A : ℚ) := by
              exact_mod_cast Nat.lt_of_lt_of_le Nat.zero_lt_one hA
            rw [hsumA] at h
            exact absurd h.symm (ne_of_gt hA0)
          · have hrow : ∀ b ∈ Finset.range A, shiftedWeights A row b = row b := by
              intro b _
              rw [hshift b]
              unfold baseWeights
              rw [if_neg hz]
            rw [Finset.sum_congr rfl hrow] at h
            exact hz h.symm
      exact div_nonneg ((hshift a).symm ▸ hbase a ha) (le_of_lt hsum)

/-- Witness for C5: a mixed-sign row `(-1, 2)` whose final sampler
weights are non-negative, on a 2-action space. -/
theorem run_MDP_sampling_weights_spec_witness :
    0 ≤ sampleWeights 2 (fun a => if a = 0 then (-1 : ℚ) else 2) 0 :=
  (run_MDP_sampling_weights_spec 2 (fun a => if a = 0 then (-1 : ℚ) else 2)
    (fun _ => 0) (fun _ => false) 3 (by decide)).2.2.1 0 (by decide)

/-- The accumulated `totalReward` is the sum of the step-reported rewards
over the steps actually executed. -/
theorem runLoop_total (rew : Nat → ℚ) (dne : Nat → Bool) :
    ∀ n i, (runLoop rew dne n i).1
      = ∑ j in Finset.range ((runLoop rew dne n i).2), rew (i + j) := by
  intro n
  induction n with
  | zero => intro i; simp [runLoop]
  | succ m ih =>
      intro i
      show (if dne i then _ else _ : ℚ × Nat).1 = _
      by_cases hd : dne i
      · rw [if_pos hd]
        show rew i = ∑ j in Finset.range
            ((if dne i then ((rew i, 1) : ℚ × Nat) else _).2), rew (i + j)
        rw [if_pos hd]
        simp
      · rw [if_neg hd]
        show rew i + (runLoop rew dne m (i + 1)).1 = ∑ j in Finset.range
            ((if dne i then ((rew i, 1) : ℚ × Nat) else _).2), rew (i + j)
        rw [if_neg hd]
        show _ = ∑ j in Finset.range ((runLoop rew dne m (i + 1)).2 + 1), rew (i + j)
        rw [Finset.sum_range_succ', ih (i + 1)]
        have harg : ∀ j, i + (j + 1) = (i + 1) + j := by omega
        rw [add_comm (rew i)]
        congr 1
        refine Finset.sum_congr rfl ?_
        intro j _
        rw [harg j]

/-- Claim C7 (amended).  `run_MDP_for_given_policy` accumulates the sum
of the step-reported rewards over the executed steps in its local
`totalReward` (optionally printing it), but its body has no `return`
statement: the caller receives `None`, and in particular neither the
total reward nor any per-step trajectory. -/
theorem run_MDP_total_reward_spec (policy : Nat → Nat → ℚ) (rew : Nat → ℚ)
    (dne : Nat → Bool) (maxNumIterations i : Nat) :
    run_MDP_for_given_policy policy rew dne maxNumIterations = none ∧
    (runLoop rew dne maxNumIterations i).1
      = ∑ j in Finset.range ((runLoop rew dne maxNumIterations i).2),
          rew (i + j) :=
  ⟨rfl, runLoop_total rew dne maxNumIterations i⟩

/-- Counterexample to C7 as stated: a 1-step episode accumulating total
reward 5 still makes the function return `None`, not the total. -/
theorem run_MDP_returns_none_counterexample :
    run_MDP_for_given_policy (fun _ _ => 1) (fun _ => 5) (fun _ => true) 1
      = none ∧
    (runLoop (fun _ => 5) (fun _ => true) 1 0).1 = 5 ∧
    run_MDP_for_given_policy (fun _ _ => 1) (fun _ => 5) (fun _ => true) 1
      ≠ some ((runLoop (fun _ => 5) (fun _ => true) 1 0).1) := by
  refine ⟨rfl, by decide!, by decide!⟩

/-- Membership in the greedy comprehension of line 280 is exactly
"in-range index attaining the row maximum". -/
theorem mem_greedyCandidates (A : Nat) (Qrow : Nat → ℚ) (hA : 1 ≤ A) (a : Nat) :
    a ∈ greedyCandidates A Qrow ↔ (a < A ∧ ∀ b, b < A → Qrow b ≤ Qrow a) := by
  unfold greedyCandidates
  rw [List.mem_filter, List.mem_range, decide_eq_true_eq]
  constructor
  · rintro ⟨ha, hmax⟩
    refine ⟨ha, ?_⟩
    intro b hb
    have hmem : Qrow b ∈ (List.range A).map Qrow :=
      List.mem_map.mpr ⟨b, List.mem_range.mpr hb, rfl⟩
    rw [hmax]
    exact le_npMax_of_mem _ _ hmem
  · rintro ⟨ha, hub⟩
    refine ⟨ha, ?_⟩
    have hne : (List.range A).map Qrow ≠ [] := by
      intro hnil
      have := congrArg List.length hnil
      rw [List.length_map, List.length_range] at this
      exact Nat.pos_iff_ne_zero.mp hA this
    have hmem := npMax_mem _ hne
    obtain ⟨c, hc, hceq⟩ := List.mem_map.mp hmem
    have h1 : npMax ((List.range A).map Qrow) ≤ Qrow a := by
      rw [← hceq]
      exact hub c (List.mem_range.mp hc)
    have h2 : Qrow a ≤ npMax ((List.range A).map Qrow) :=
      le_npMax_of_mem _ _ (List.mem_map.mpr ⟨a, List.mem_range.mpr ha, rfl⟩)
    exact le_antisymm h2 h1

/-- Claim C6.  With `ε = 0` the binomial draw is surely 0 and
`chooseAction` can return exactly the actions attaining the row maximum;
with `ε = 1` the draw is surely 1 and every action in `[0, A)` can be
returned, whatever the Q values. -/
theorem chooseAction_support_spec (A : Nat) (Qrow : Nat → ℚ) (hA : 1 ≤ A) :
    (∀ a, a ∈ chooseActionSupport 0 A Qrow ↔
      (a < A ∧ ∀ b, b < A → Qrow b ≤ Qrow a)) ∧
    (∀ a, a ∈ chooseActionSupport 1 A Qrow ↔ a < A) := by
  constructor
  · intro a
    have hsupp : chooseActionSupport 0 A Qrow = greedyCandidates A Qrow := by
      unfold chooseActionSupport binomialSupport
      rw [if_pos rfl]
      simp
    rw [hsupp]
    exact mem_greedyCandidates A Qrow hA a
  · intro a
    have hsupp : chooseActionSupport 1 A Qrow = List.range A := by
      unfold chooseActionSupport binomialSupport
      rw [if_neg one_ne_zero, if_pos rfl]
      simp
    rw [hsupp]
    exact List.mem_range

/-- Witness for C6 on the 2-action row `(0, 7)`: action 1 is greedy for
`ε = 0` and available for `ε = 1`. -/
theorem chooseAction_support_spec_witness :
    1 ∈ chooseActionSupport 0 2 (fun a => if a = 0 then (0:ℚ) else 7) ∧
    1 ∈ chooseActionSupport 1 2 (fun a => if a = 0 then (0:ℚ) else 7) := by
  have h := chooseAction_support_spec 2 (fun a => if a = 0 then (0:ℚ) else 7)
    (by decide)
  constructor
  · exact (h.1 1).mpr ⟨by decide, by
      intro b hb
      interval_cases b <;> norm_num⟩
  · exact (h.2 1).mpr (by decide)

/-- Claim C9.  For any state of an `S × A` table with `A ≥ 1` and any
`ε ∈ [0, 1]`, the greedy candidate list is never empty, `chooseAction`
always has a possible outcome, and every outcome is an action index in
`[0, A)`. -/
theorem chooseAction_in_range_spec (S A s : Nat) (Q : Nat → Nat → ℚ)
    (explorationProbEpsilon : ℚ) (hs : s < S) (hA : 1 ≤ A)
    (h0 : 0 ≤ explorationProbEpsilon) (h1 : explorationProbEpsilon ≤ 1) :
    greedyCandidates A (Q s) ≠ [] ∧
    chooseActionSupport explorationProbEpsilon A (Q s) ≠ [] ∧
    (∀ a ∈ chooseActionSupport explorationProbEpsilon A (Q s), a < A) := by
  have hgreedy : greedyCandidates A (Q s) ≠ [] := by
    have hne : (List.range A).map (Q s) ≠ [] := by
      intro hnil
      have := congrArg List.length hnil
      rw [List.length_map, List.length_range] at this
      exact Nat.pos_iff_ne_zero.mp hA this
    obtain ⟨c, hc, hceq⟩ := List.mem_map.mp (npMax_mem _ hne)
    have hcmem : c ∈ greedyCandidates A (Q s) := by
      unfold greedyCandidates
      rw [List.mem_filter, decide_eq_true_eq]
      exact ⟨hc, hceq⟩
    exact List.ne_nil_of_mem hcmem
  have hrange : (List.range A : List Nat) ≠ [] := by
    intro hnil
    have := congrArg List.length hnil
    rw [List.length_range] at this
    exact Nat.pos_iff_ne_zero.mp hA this
  have hbranch : ∀ b : Nat,
      (if b = 1 then List.range A else greedyCandidates A (Q s)) ≠ [] := by
    intro b
    by_cases hb : b = 1
    · rw [if_pos hb]; exact hrange
    · rw [if_neg hb]; exact hgreedy
  refine ⟨hgreedy, ?_, ?_⟩
  · unfold chooseActionSupport binomialSupport
    by_cases he0 : explorationProbEpsilon = 0
    · rw [if_pos he0]
      intro hnil
      rw [List.flatMap_cons, List.flatMap_nil, List.append_nil] at hnil
      exact hbranch 0 hnil
    · rw [if_neg he0]
      by_cases he1 : explorationProbEpsilon = 1
      · rw [if_pos he1]
        intro hnil
        rw [List.flatMap_cons, List.flatMap_nil, List.append_nil] at hnil
        exact hbranch 1 hnil
      · rw [if_neg he1]
        intro hnil
        rw [List.flatMap_cons, List.flatMap_cons, List.flatMap_nil,
          List.append_nil] at hnil
        exact hbranch 0 (List.append_eq_nil.mp hnil).1
  · intro a ha
    obtain ⟨b, _, hab⟩ := List.mem_flatMap.mp ha
    by_cases hb : b = 1
    · rw [if_pos hb] at hab
      exact List.mem_range.mp hab
    · rw [if_neg hb] at hab
      exact ((mem_greedyCandidates A (Q s) hA a).mp hab).1

/-- Witness for C9: a 3-state, 2-action table with `ε = 1/2`; the
possible outcome `1` is a valid action index. -/
theorem chooseAction_in_range_spec_witness :
    1 ∈ chooseActionSupport (1/2) 2 ((fun _ _ => (4:ℚ)) 1) ∧ 1 < 2 := by
  have hmem : 1 ∈ chooseActionSupport (1/2) 2 ((fun _ _ => (4:ℚ)) 1) := by
    decide!
  exact ⟨hmem, (chooseAction_in_range_spec 3 2 1 (fun _ _ => (4:ℚ)) (1/2)
    (by decide) (by decide) (by norm_num) (by norm_num)).2.2 1 hmem⟩

/-- Claim C8 (amended).  The constructor checks only that both spaces
are discrete, via bare assertions: with two discrete spaces it succeeds,
copies the sizes, zeroes the counters and resets the environment; with
any non-discrete space it raises a plain `AssertionError`.  It receives
no policy or tables, so no size-mismatch check happens at construction. -/
theorem FiniteMDP_init_spec (environment : GymEnv) :
    (∀ a s, environment.action_space = GymSpace.discrete a →
      environment.observation_space = GymSpace.discrete s →
      FiniteMDP_init environment = Except.ok ⟨s, a, 0, 0, true⟩) ∧
    ((environment.action_space = GymSpace.nondiscrete ∨
      environment.observation_space = GymSpace.nondiscrete) →
      FiniteMDP_init environment = Except.error "AssertionError") := by
  obtain ⟨act, obs⟩ := environment
  constructor
  · intro a s ha hs
    simp only at ha hs
    subst ha
    subst hs
    rfl
  · intro hnd
    cases act with
    | nondiscrete => rfl
    | discrete n =>
        cases obs with
        | nondiscrete => rfl
        | discrete m =>
            rcases hnd with h | h <;> exact absurd h (by simp)

/-- Witness for the amended C8: a discrete 2-action, 3-state environment
constructs successfully with a reset. -/
theorem FiniteMDP_init_spec_witness :
    FiniteMDP_init ⟨GymSpace.discrete 2, GymSpace.discrete 3⟩
      = Except.ok ⟨3, 2, 0, 0, true⟩ :=
  (FiniteMDP_init_spec ⟨GymSpace.discrete 2, GymSpace.discrete 3⟩).1 2 3 rfl rfl

/-- Counterexample to C8 as stated: an environment with discrete spaces
of sizes 2 × 2 constructs successfully even though a supplied 3 × 3
policy's shape mismatches them — no size check exists, so construction
does not fail on mismatched sizes. -/
theorem init_no_mismatch_check_counterexample :
    FiniteMDP_init ⟨GymSpace.discrete 2, GymSpace.discrete 2⟩
      = Except.ok ⟨2, 2, 0, 0, true⟩ ∧
    (List.replicate 3 (List.replicate 3 ((1:ℚ)/3))).length ≠ 2 := by
  exact ⟨rfl, by decide⟩

end TabularRL
